import Mathlib

/-!
Verification development for the agentfield repository.

Part 1 models the SDK memory backend (`sdk/go/agent/memory.go`):
the `InMemoryBackend` keyed store with its composite `scope:scopeID` key.

Part 2 models the control-plane presence/liveness subsystem
(`PresenceManager`): lease table, touch/forget/query operations and the
periodic sweep with the two-tier (soft-expiry / hard-eviction) policy.
Only the test file of that subsystem is in the sources, so the manager
itself is modelled from the spec (each such definition says so).

Go maps are embedded as association lists with first-occurrence lookup;
the operations below keep keys unique, mirroring Go map semantics.
-/

/-- Lookup in an association list: first entry whose key matches, mirroring
a Go map read `m[k]`. -/
def assocGet {β : Type} : List (String × β) → String → Option β
  | [], _ => none
  | (k, v) :: rest, key => if k = key then some v else assocGet rest key

/-- Insert-or-replace in an association list, mirroring a Go map write
`m[k] = v`. -/
def assocSet {β : Type} : List (String × β) → String → β → List (String × β)
  | [], key, val => [(key, val)]
  | (k, v) :: rest, key, val =>
      if k = key then (key, val) :: rest else (k, v) :: assocSet rest key val

/-- Removal from an association list, mirroring Go `delete(m, k)`. -/
def assocDelete {β : Type} : List (String × β) → String → List (String × β)
  | [], _ => []
  | (k, v) :: rest, key =>
      if k = key then rest else (k, v) :: assocDelete rest key

theorem assocGet_assocSet_self {β : Type} (l : List (String × β)) (k : String) (v : β) :
    assocGet (assocSet l k v) k = some v := by
  induction l with
  | nil => simp [assocGet, assocSet]
  | cons p rest ih =>
      obtain ⟨k', v'⟩ := p
      by_cases h : k' = k <;> simp [assocGet, assocSet, h, ih]

theorem assocGet_assocSet_ne {β : Type} (l : List (String × β)) (k k' : String) (v : β)
    (h : k ≠ k') : assocGet (assocSet l k v) k' = assocGet l k' := by
  induction l with
  | nil => simp [assocGet, assocSet, h]
  | cons p rest ih =>
      obtain ⟨k'', v''⟩ := p
      by_cases h2 : k'' = k
      · subst h2; simp [assocGet, assocSet, h]
      · simp [assocGet, assocSet, h2, ih]

theorem assocGet_assocDelete_ne {β : Type} (l : List (String × β)) (k k' : String)
    (h : k ≠ k') : assocGet (assocDelete l k) k' = assocGet l k' := by
  induction l with
  | nil => simp [assocDelete]
  | cons p rest ih =>
      obtain ⟨k'', v''⟩ := p
      by_cases h2 : k'' = k
      · subst h2; simp [assocGet, assocDelete, h]
      · by_cases h3 : k'' = k' <;>
          simp [assocGet, assocDelete, h2, h3, ih, Ne.symm h]

theorem assocDelete_absent {β : Type} (l : List (String × β)) (k : String)
    (h : assocGet l k = none) : assocDelete l k = l := by
  induction l with
  | nil => simp [assocDelete]
  | cons p rest ih =>
      obtain ⟨k', v'⟩ := p
      by_cases h2 : k' = k
      · simp [assocGet, h2] at h
      · simp [assocGet, h2] at h
        simp [assocDelete, h2, ih h]

/-! ### SDK memory backend (`sdk/go/agent/memory.go`) -/

/-- The four `MemoryScope` constants declared in `memory.go`. -/
def ScopeWorkflow : String := "workflow"

/-- Session scope constant. -/
def ScopeSession : String := "session"

/-- User scope constant. -/
def ScopeUser : String := "user"

/-- Global scope constant. -/
def ScopeGlobal : String := "global"

/-- A scope string is one of the four declared `MemoryScope` constants. -/
def IsMemoryScope (s : String) : Prop :=
  s = ScopeWorkflow ∨ s = ScopeSession ∨ s = ScopeUser ∨ s = ScopeGlobal

instance (s : String) : Decidable (IsMemoryScope s) := by
  unfold IsMemoryScope; infer_instance

/-- `InMemoryBackend`: `data` maps the composite key `"scope:scopeID"` to an
inner key/value map. Values (`any` in Go) are a type parameter. -/
structure InMemoryBackend (α : Type) where
  data : List (String × List (String × α))

/-- `compositeKey` from `memory.go`: `string(scope) + ":" + scopeID`. -/
def compositeKey (scope scopeID : String) : String :=
  scope ++ ":" ++ scopeID

/-- `InMemoryBackend.Set`: create the inner map when absent, then store the
value; always returns a nil error (modelled as `none`). -/
def InMemoryBackend.set {α : Type} (b : InMemoryBackend α) (scope scopeID key : String)
    (value : α) : InMemoryBackend α × Option String :=
  let ck := compositeKey scope scopeID
  let inner := (assocGet b.data ck).getD []
  (⟨assocSet b.data ck (assocSet inner key value)⟩, none)

/-- `InMemoryBackend.Get`: returns `(value, found, error)`; the error is
always nil (`none`). -/
def InMemoryBackend.get {α : Type} (b : InMemoryBackend α) (scope scopeID key : String) :
    Option α × Bool × Option String :=
  let ck := compositeKey scope scopeID
  match assocGet b.data ck with
  | none => (none, false, none)
  | some inner =>
      match assocGet inner key with
      | none => (none, false, none)
      | some v => (some v, true, none)

/-- `InMemoryBackend.Delete`: removes the key from the inner map when the
inner map exists; always returns a nil error. -/
def InMemoryBackend.delete {α : Type} (b : InMemoryBackend α) (scope scopeID key : String) :
    InMemoryBackend α × Option String :=
  let ck := compositeKey scope scopeID
  match assocGet b.data ck with
  | none => (b, none)
  | some inner => (⟨assocSet b.data ck (assocDelete inner key)⟩, none)

/-- `InMemoryBackend.List`: all keys of the inner map (empty when the inner
map is absent, as Go returns a nil slice); always a nil error. -/
def InMemoryBackend.list {α : Type} (b : InMemoryBackend α) (scope scopeID : String) :
    List String × Option String :=
  let ck := compositeKey scope scopeID
  match assocGet b.data ck with
  | none => ([], none)
  | some inner => (inner.map Prod.fst, none)

/-- C9: `Set` then `Get` at the same scope, scopeID and key yields exactly
`(value, true, nil)`, and `Set`, `Get`, `Delete` and `List` always return a
nil error. -/
theorem inMemoryBackend_set_get_roundtrip {α : Type} (b : InMemoryBackend α)
    (scope scopeID key : String) (value : α) :
    (b.set scope scopeID key value).1.get scope scopeID key = (some value, true, none) ∧
    (b.set scope scopeID key value).2 = none ∧
    (b.get scope scopeID key).2.2 = none ∧
    (b.delete scope scopeID key).2 = none ∧
    (b.list scope scopeID).2 = none := by
  refine ⟨?_, rfl, ?_, ?_, ?_⟩
  · simp only [InMemoryBackend.set, InMemoryBackend.get,
      assocGet_assocSet_self, assocGet_assocSet_self]
  · simp only [InMemoryBackend.get]
    split
    · rfl
    · split <;> rfl
  · simp only [InMemoryBackend.delete]
    rcases assocGet b.data (compositeKey scope scopeID) with _ | inner <;> rfl
  · simp only [InMemoryBackend.list]
    rcases assocGet b.data (compositeKey scope scopeID) with _ | inner <;> rfl

theorem colon_split {l1 : List Char} :
    ∀ {l2 : List Char} {r1 r2 : List Char}, ':' ∉ l1 → ':' ∉ l2 →
      l1 ++ ':' :: r1 = l2 ++ ':' :: r2 → l1 = l2 ∧ r1 = r2 := by
  induction l1 with
  | nil =>
      intro l2 r1 r2 _ h2 heq
      cases l2 with
      | nil => simpa using heq
      | cons c l2' =>
          simp only [List.nil_append, List.cons_append, List.cons.injEq] at heq
          exact (h2 (by rw [heq.1]; exact List.mem_cons_self c l2')).elim
  | cons c l1' ih =>
      intro l2 r1 r2 h1 h2 heq
      cases l2 with
      | nil =>
          simp only [List.cons_append, List.nil_append, List.cons.injEq] at heq
          exact (h1 (by rw [← heq.1]; exact List.mem_cons_self c l1')).elim
      | cons d l2' =>
          simp only [List.cons_append, List.cons.injEq] at heq
          have h1' : ':' ∉ l1' := fun hm => h1 (List.mem_cons_of_mem c hm)
          have h2' : ':' ∉ l2' := fun hm => h2 (List.mem_cons_of_mem d hm)
          obtain ⟨he, hr⟩ := ih h1' h2' heq.2
          exact ⟨by rw [heq.1, he], hr⟩

theorem compositeKey_inj {s t a b : String}
    (hs : ':' ∉ s.data) (ht : ':' ∉ t.data)
    (h : compositeKey s a = compositeKey t b) : s = t ∧ a = b := by
  have hdata : s.data ++ ':' :: a.data = t.data ++ ':' :: b.data := by
    have := congrArg String.data h
    simpa [compositeKey, String.data_append, List.append_assoc] using this
  obtain ⟨h1, h2⟩ := colon_split hs ht hdata
  exact ⟨String.ext h1, String.ext h2⟩

theorem memoryScope_colon_free {s : String} (h : IsMemoryScope s) : ':' ∉ s.data := by
  rcases h with h | h | h | h <;> subst h <;> decide

/-- C10: operations are isolated per (scope, scopeID) pair — a `Set` or
`Delete` under one pair, with both scopes among the declared scope
constants, leaves every value readable under a different pair unchanged. -/
theorem inMemoryBackend_scope_isolation {α : Type} (b : InMemoryBackend α)
    (s i s' i' k k' : String) (v : α)
    (hs : IsMemoryScope s) (hs' : IsMemoryScope s')
    (hne : (s, i) ≠ (s', i')) :
    (b.set s i k v).1.get s' i' k' = b.get s' i' k' ∧
    (b.delete s i k).1.get s' i' k' = b.get s' i' k' := by
  have hck : compositeKey s i ≠ compositeKey s' i' := by
    intro h
    obtain ⟨h1, h2⟩ :=
      compositeKey_inj (memoryScope_colon_free hs) (memoryScope_colon_free hs') h
    exact hne (by rw [h1, h2])
  constructor
  · simp only [InMemoryBackend.set, InMemoryBackend.get,
      assocGet_assocSet_ne _ _ _ _ hck]
  · simp only [InMemoryBackend.delete]
    rcases hdg : assocGet b.data (compositeKey s i) with _ | inner
    · rfl
    · simp only [InMemoryBackend.get, assocGet_assocSet_ne _ _ _ _ hck]

/-- C10 witness: concrete evaluation at two distinct (scope, scopeID)
pairs. -/
theorem inMemoryBackend_scope_isolation_witness :
    ((InMemoryBackend.mk [("session:a", [("x", (1 : Nat))])]).set
        ScopeUser "a" "x" 2).1.get ScopeSession "a" "x" =
      (InMemoryBackend.mk [("session:a", [("x", (1 : Nat))])]).get
        ScopeSession "a" "x" := by
  exact (inMemoryBackend_scope_isolation
    (InMemoryBackend.mk [("session:a", [("x", (1 : Nat))])])
    ScopeUser "a" ScopeSession "a" "x" "x" 2
    (Or.inr (Or.inr (Or.inl rfl))) (Or.inr (Or.inl rfl)) (by decide)).1

/-! ### Presence/liveness subsystem (control-plane `PresenceManager`)

The repository sources contain only the test file of this subsystem
(`presence_manager_test.go`); the manager itself is modelled from the
spec. Timestamps and durations are integers (Go `time.Time` /
`time.Duration` in nanoseconds). The expiry-callback invocations of a
sweep pass are returned as a list of node identifiers: an element of that
list models one invocation of the registered callback. -/

/-- Modelled from the spec: one lease table entry — `lastSeen` is the
timestamp of the most recent accepted touch, `notified` records whether
the expiry notification has already fired since the last `Active` state
(the per-node at-most-once tracking of §4.2). -/
structure Lease where
  lastSeen : Int
  notified : Bool
  deriving DecidableEq, Repr

/-- Modelled from the spec: `PresenceManagerConfig` with the soft-expiry
threshold, the sweep cadence and the removal threshold, in nanoseconds. -/
structure PresenceManagerConfig where
  heartbeatTTL : Int
  sweepInterval : Int
  hardEvictTTL : Int
  deriving DecidableEq, Repr

/-- 15 seconds in nanoseconds: the default `HeartbeatTTL`. -/
def defaultHeartbeatTTL : Int := 15000000000

/-- 5 minutes in nanoseconds: the default `HardEvictTTL`. -/
def defaultHardEvictTTL : Int := 300000000000

/-- Modelled from the spec: the default `SweepInterval` is "a small
fraction of HeartbeatTTL (observed default in the few-second range)";
5 seconds is taken as the concrete value. -/
def defaultSweepInterval : Int := 5000000000

/-- Modelled from the spec: zero-valued configuration fields are replaced
by the defaults at construction time (§4.4). -/
def applyDefaults (c : PresenceManagerConfig) : PresenceManagerConfig where
  heartbeatTTL := if c.heartbeatTTL = 0 then defaultHeartbeatTTL else c.heartbeatTTL
  sweepInterval := if c.sweepInterval = 0 then defaultSweepInterval else c.sweepInterval
  hardEvictTTL := if c.hardEvictTTL = 0 then defaultHardEvictTTL else c.hardEvictTTL

/-- Modelled from the spec: the Presence Manager state — its (defaulted)
configuration, the lease table, and whether the sweep scheduler is
running. -/
structure PresenceManager where
  config : PresenceManagerConfig
  leases : List (String × Lease)
  running : Bool
  deriving DecidableEq, Repr

/-- Modelled from the spec: `NewPresenceManager` applies the configuration
defaults and starts with an empty lease table, not running. -/
def newPresenceManager (c : PresenceManagerConfig) : PresenceManager where
  config := applyDefaults c
  leases := []
  running := false

/-- Snapshot read of a node's lease entry (`Get` of the lease table). -/
def PresenceManager.lookup (m : PresenceManager) (nodeID : String) : Option Lease :=
  assocGet m.leases nodeID

/-- Modelled from the spec: `Touch` creates the entry on first contact and
otherwise updates `lastSeen` only when the new timestamp is newer
(latest-timestamp-wins, §4.4); an accepted update resets the notification
tracking (§4.2). An older out-of-order touch is ignored. -/
def PresenceManager.touch (m : PresenceManager) (nodeID : String) (t : Int) :
    PresenceManager :=
  match assocGet m.leases nodeID with
  | none => { m with leases := assocSet m.leases nodeID ⟨t, false⟩ }
  | some e =>
      if e.lastSeen < t then
        { m with leases := assocSet m.leases nodeID ⟨t, false⟩ }
      else m

/-- Modelled from the spec: `Forget` removes the entry immediately,
bypassing TTL logic; it fires no notification (the second component, the
callback-invocation list, is always empty). -/
def PresenceManager.forget (m : PresenceManager) (nodeID : String) :
    PresenceManager × List String :=
  ({ m with leases := assocDelete m.leases nodeID }, [])

/-- Modelled from the spec and `TestPresenceManager_ExpirationDetection`:
`HasLease` is a liveness check — true iff an entry exists and
`now - lastSeen < HeartbeatTTL` (the test requires it to turn false at
soft expiry, while the entry is only removed at hard eviction). -/
def PresenceManager.hasLease (m : PresenceManager) (now : Int) (nodeID : String) : Bool :=
  match assocGet m.leases nodeID with
  | none => false
  | some e => now - e.lastSeen < m.config.heartbeatTTL

/-- Modelled from the spec: classification of one lease during a sweep pass
(§4.2). Returns the surviving entry (or `none` when hard-evicted) and the
callback invocations it produces. -/
def sweepEntry (cfg : PresenceManagerConfig) (now : Int) (nodeID : String) (e : Lease) :
    Option Lease × List String :=
  if cfg.hardEvictTTL ≤ now - e.lastSeen then
    (none, if e.notified then [] else [nodeID])
  else if cfg.heartbeatTTL ≤ now - e.lastSeen then
    if e.notified then (some e, []) else (some ⟨e.lastSeen, true⟩, [nodeID])
  else (some e, [])

/-- Modelled from the spec: a sweep pass over the whole lease table, all
entries judged against the same `now`. -/
def sweepList (cfg : PresenceManagerConfig) (now : Int) :
    List (String × Lease) → List (String × Lease) × List String
  | [] => ([], [])
  | (nodeID, e) :: rest =>
      ((match (sweepEntry cfg now nodeID e).1 with
        | none => (sweepList cfg now rest).1
        | some e' => (nodeID, e') :: (sweepList cfg now rest).1),
       (sweepEntry cfg now nodeID e).2 ++ (sweepList cfg now rest).2)

/-- Modelled from the spec: one sweep pass of the scheduler at time `now`,
returning the new manager state and the callback invocations. -/
def PresenceManager.sweep (m : PresenceManager) (now : Int) :
    PresenceManager × List String :=
  ({ m with leases := (sweepList m.config now m.leases).1 },
   (sweepList m.config now m.leases).2)

/-- A sequence of sweep passes at the given times, collecting all callback
invocations in order. -/
def sweepRuns (m : PresenceManager) : List Int → PresenceManager × List String
  | [] => (m, [])
  | now :: rest =>
      ((sweepRuns (m.sweep now).1 rest).1,
       (m.sweep now).2 ++ (sweepRuns (m.sweep now).1 rest).2)

/-- Modelled from the spec: `Start` begins the sweep scheduler; a no-op
when already running. -/
def PresenceManager.start (m : PresenceManager) : PresenceManager :=
  if m.running then m else { m with running := true }

/-- Modelled from the spec: `Stop` halts the sweep scheduler; a no-op when
not running (also when never started). -/
def PresenceManager.stop (m : PresenceManager) : PresenceManager :=
  if m.running then { m with running := false } else m

/-- The keys of an association list. -/
def assocKeys {β : Type} (l : List (String × β)) : List String :=
  l.map Prod.fst

theorem assocGet_eq_none_iff {β : Type} (l : List (String × β)) (k : String) :
    assocGet l k = none ↔ k ∉ assocKeys l := by
  induction l with
  | nil => simp [assocGet, assocKeys]
  | cons p rest ih =>
      obtain ⟨k', v'⟩ := p
      by_cases h : k' = k
      · subst h
        simp [assocGet, assocKeys]
      · simp only [assocGet, if_neg h, assocKeys, List.map_cons, List.mem_cons]
        constructor
        · intro hnone hmem
          rcases hmem with hmem | hmem
          · exact h hmem.symm
          · exact (ih.mp hnone) hmem
        · intro hnmem
          exact ih.mpr fun hm => hnmem (Or.inr hm)

theorem assocSet_keys_mem {β : Type} (l : List (String × β)) (k x : String) (v : β)
    (h : x ∈ assocKeys (assocSet l k v)) : x ∈ assocKeys l ∨ x = k := by
  induction l with
  | nil => simpa [assocSet, assocKeys] using h
  | cons p rest ih =>
      obtain ⟨k', v'⟩ := p
      by_cases h2 : k' = k
      · subst h2
        simp [assocSet, assocKeys] at h ⊢
        exact Or.inl h
      · simp only [assocSet, assocKeys, if_neg h2, List.map_cons, List.mem_cons] at h ⊢
        rcases h with h | h
        · exact Or.inl (Or.inl h)
        · rcases ih h with h3 | h3
          · exact Or.inl (Or.inr h3)
          · exact Or.inr h3

theorem assocSet_keys_nodup {β : Type} (l : List (String × β)) (k : String) (v : β)
    (h : (assocKeys l).Nodup) : (assocKeys (assocSet l k v)).Nodup := by
  induction l with
  | nil => simp [assocSet, assocKeys]
  | cons p rest ih =>
      obtain ⟨k', v'⟩ := p
      simp only [assocKeys, List.map_cons, List.nodup_cons] at h
      by_cases h2 : k' = k
      · subst h2
        simpa [assocSet, assocKeys] using h
      · simp only [assocSet, if_neg h2, assocKeys, List.map_cons, List.nodup_cons]
        refine ⟨fun hm => ?_, ih h.2⟩
        rcases assocSet_keys_mem rest k k' v hm with h3 | h3
        · exact h.1 h3
        · exact h2 h3

theorem sweepList_events_sub (cfg : PresenceManagerConfig) (now : Int)
    (l : List (String × Lease)) :
    ∀ x ∈ (sweepList cfg now l).2, x ∈ assocKeys l := by
  induction l with
  | nil => simp [sweepList]
  | cons p rest ih =>
      obtain ⟨nid, e⟩ := p
      intro x hx
      simp only [sweepList, List.mem_append] at hx
      simp only [assocKeys, List.map_cons, List.mem_cons]
      rcases hx with hx | hx
      · left
        simp only [sweepEntry] at hx
        split_ifs at hx <;> simp_all
      · exact Or.inr (ih x hx)

theorem sweepList_keys_sublist (cfg : PresenceManagerConfig) (now : Int)
    (l : List (String × Lease)) :
    (assocKeys (sweepList cfg now l).1).Sublist (assocKeys l) := by
  induction l with
  | nil => simp [sweepList, assocKeys]
  | cons p rest ih =>
      obtain ⟨nid, e⟩ := p
      simp only [sweepList, assocKeys, List.map_cons]
      rcases (sweepEntry cfg now nid e).1 with _ | e'
      · exact ih.cons nid
      · exact ih.cons₂ nid

theorem sweepList_get_absent (cfg : PresenceManagerConfig) (now : Int)
    (l : List (String × Lease)) (n : String) (h : assocGet l n = none) :
    assocGet (sweepList cfg now l).1 n = none ∧
    (sweepList cfg now l).2.count n = 0 := by
  have hk : n ∉ assocKeys l := (assocGet_eq_none_iff l n).mp h
  constructor
  · rw [assocGet_eq_none_iff]
    intro hm
    exact hk ((sweepList_keys_sublist cfg now l).mem hm)
  · rw [List.count_eq_zero]
    intro hm
    exact hk (sweepList_events_sub cfg now l n hm)

theorem sweepList_get (cfg : PresenceManagerConfig) (now : Int)
    (l : List (String × Lease)) (n : String) (e : Lease)
    (hnd : (assocKeys l).Nodup) (h : assocGet l n = some e) :
    assocGet (sweepList cfg now l).1 n = (sweepEntry cfg now n e).1 ∧
    (sweepList cfg now l).2.count n = (sweepEntry cfg now n e).2.length := by
  induction l with
  | nil => simp [assocGet] at h
  | cons p rest ih =>
      obtain ⟨k, e'⟩ := p
      simp only [assocKeys, List.map_cons, List.nodup_cons] at hnd
      by_cases h2 : k = n
      · subst h2
        simp only [assocGet, if_pos rfl, if_true, Option.some.injEq] at h
        subst h
        have hrest : assocGet rest k = none := by
          rw [assocGet_eq_none_iff]; exact hnd.1
        obtain ⟨hg, hc⟩ := sweepList_get_absent cfg now rest k hrest
        constructor
        · simp only [sweepList]
          rcases hse : (sweepEntry cfg now k e').1 with _ | e''
          · exact hg
          · simp [assocGet]
        · simp only [sweepList, List.count_append, hc, Nat.add_zero]
          simp only [sweepEntry]
          split_ifs <;> simp [List.count_cons]
      · simp only [assocGet, if_neg h2] at h
        obtain ⟨hg, hc⟩ := ih hnd.2 h
        constructor
        · simp only [sweepList]
          rcases (sweepEntry cfg now k e').1 with _ | e''
          · exact hg
          · simpa [assocGet, h2] using hg
        · simp only [sweepList, List.count_append, hc]
          have hzero : (sweepEntry cfg now k e').2.count n = 0 := by
            rw [List.count_eq_zero]
            intro hm
            have hnk : n = k := by
              simp only [sweepEntry] at hm
              split_ifs at hm <;> simp_all
            exact h2 hnk.symm
          omega

theorem assocGet_assocDelete_self {β : Type} (l : List (String × β)) (k : String)
    (hnd : (assocKeys l).Nodup) : assocGet (assocDelete l k) k = none := by
  induction l with
  | nil => simp [assocDelete, assocGet]
  | cons p rest ih =>
      obtain ⟨k', v'⟩ := p
      simp only [assocKeys, List.map_cons, List.nodup_cons] at hnd
      by_cases h : k' = k
      · subst h
        simp only [assocDelete, if_pos rfl, if_true]
        rw [assocGet_eq_none_iff]
        exact hnd.1
      · simp only [assocDelete, if_neg h, assocGet, if_neg h]
        exact ih hnd.2

theorem touch_keys_nodup (m : PresenceManager) (n : String) (t : Int)
    (hnd : (assocKeys m.leases).Nodup) :
    (assocKeys (m.touch n t).leases).Nodup := by
  simp only [PresenceManager.touch]
  rcases assocGet m.leases n with _ | e
  · exact assocSet_keys_nodup m.leases n ⟨t, false⟩ hnd
  · by_cases h : e.lastSeen < t
    · simpa [h] using assocSet_keys_nodup m.leases n ⟨t, false⟩ hnd
    · simpa [h] using hnd

/-! ### Claims about the presence subsystem -/

theorem sweepRuns_notified_stable (cfg : PresenceManagerConfig) (n : String) (t : Int)
    (r : Bool) (ts : List Int)
    (hw : ∀ now ∈ ts, now - t < cfg.hardEvictTTL) :
    sweepRuns ⟨cfg, [(n, ⟨t, true⟩)], r⟩ ts = (⟨cfg, [(n, ⟨t, true⟩)], r⟩, []) := by
  induction ts with
  | nil => rfl
  | cons now rest ih =>
      have hnow := hw now (List.mem_cons_self now rest)
      have hstep : (PresenceManager.sweep ⟨cfg, [(n, ⟨t, true⟩)], r⟩ now) =
          (⟨cfg, [(n, ⟨t, true⟩)], r⟩, []) := by
        simp only [PresenceManager.sweep, sweepList, sweepEntry]
        split_ifs <;> simp_all <;> omega
      simp only [sweepRuns, hstep]
      rw [ih fun x hx => hw x (List.mem_cons_of_mem now hx)]
      rfl

/-- C1: a node touched once that then sits in the soft-expired window
(`HeartbeatTTL ≤ elapsed < HardEvictTTL` at every sweep time, with no
further touches) receives the expiry callback exactly once across any
non-empty sequence of sweep passes, and its lease entry is never removed
(it survives with its original `lastSeen` and the notified flag set). -/
theorem presence_soft_expiry_once (cfg : PresenceManagerConfig) (n : String)
    (t : Int) (r : Bool) (ts : List Int) (hne : ts ≠ [])
    (hw : ∀ now ∈ ts,
      cfg.heartbeatTTL ≤ now - t ∧ now - t < cfg.hardEvictTTL) :
    (sweepRuns ((PresenceManager.mk cfg [] r).touch n t) ts).2.count n = 1 ∧
    (sweepRuns ((PresenceManager.mk cfg [] r).touch n t) ts).1.lookup n =
      some ⟨t, true⟩ := by
  have htouch : (PresenceManager.mk cfg [] r).touch n t =
      ⟨cfg, [(n, ⟨t, false⟩)], r⟩ := by
    simp [PresenceManager.touch, assocGet, assocSet]
  rcases ts with _ | ⟨now, rest⟩
  · exact absurd rfl hne
  · have hnow := hw now (List.mem_cons_self now rest)
    have hstep : (PresenceManager.sweep ⟨cfg, [(n, ⟨t, false⟩)], r⟩ now) =
        (⟨cfg, [(n, ⟨t, true⟩)], r⟩, [n]) := by
      simp only [PresenceManager.sweep, sweepList, sweepEntry]
      split_ifs <;> simp_all <;> omega
    have hrest := sweepRuns_notified_stable cfg n t r rest
      fun x hx => (hw x (List.mem_cons_of_mem now hx)).2
    rw [htouch]
    simp only [sweepRuns, hstep, hrest]
    constructor
    · simp [List.count_cons]
    · simp [PresenceManager.lookup, assocGet]

/-- C1 witness: with `HeartbeatTTL = 5`, `HardEvictTTL = 10`, a node
touched at time 0 and swept at times 6 and 7 is notified exactly once and
keeps its entry. -/
theorem presence_soft_expiry_once_witness :
    (sweepRuns ((PresenceManager.mk ⟨5, 1, 10⟩ [] true).touch "x" 0) [6, 7]).2.count "x" = 1 ∧
    (sweepRuns ((PresenceManager.mk ⟨5, 1, 10⟩ [] true).touch "x" 0) [6, 7]).1.lookup "x" =
      some ⟨0, true⟩ :=
  presence_soft_expiry_once ⟨5, 1, 10⟩ "x" 0 true [6, 7] (by decide) (by decide)

/-- C2 counterexample: a soft-expired node still has a lease entry, yet
`HasLease` reports false — so "`HasLease(n)` is true iff an entry exists"
fails on the code (the test `TestPresenceManager_ExpirationDetection`
requires exactly this behavior). -/
theorem presence_hasLease_entry_counterexample :
    (((PresenceManager.mk ⟨5, 1, 100⟩ [] true).touch "x" 0).lookup "x").isSome = true ∧
    ((PresenceManager.mk ⟨5, 1, 100⟩ [] true).touch "x" 0).hasLease 6 "x" = false := by
  decide

/-- C2 (amended): `HasLease(n)` is true iff a lease entry for `n` exists
and `now - lastSeen < HeartbeatTTL`; soft-expired and hard-evicted nodes
both report false, though the soft-expired entry itself remains in the
table. -/
theorem presence_hasLease_iff (m : PresenceManager) (now : Int) (n : String) :
    m.hasLease now n = true ↔
      ∃ e, m.lookup n = some e ∧ now - e.lastSeen < m.config.heartbeatTTL := by
  simp only [PresenceManager.hasLease, PresenceManager.lookup]
  rcases assocGet m.leases n with _ | e
  · simp
  · simp [decide_eq_true_eq]

/-- C3: a node whose elapsed time reaches `HardEvictTTL` is removed by the
sweep — the entry is gone, every later liveness query reports false, and a
new `Touch` recreates the entry. -/
theorem presence_hard_eviction (m : PresenceManager) (n : String) (e : Lease)
    (now : Int) (hnd : (assocKeys m.leases).Nodup)
    (he : m.lookup n = some e)
    (hev : m.config.hardEvictTTL ≤ now - e.lastSeen) :
    (m.sweep now).1.lookup n = none ∧
    (∀ now', (m.sweep now).1.hasLease now' n = false) ∧
    (∀ t', ((m.sweep now).1.touch n t').lookup n = some ⟨t', false⟩) := by
  have hget := (sweepList_get m.config now m.leases n e hnd he).1
  have hse : (sweepEntry m.config now n e).1 = none := by
    simp [sweepEntry, if_pos hev]
  have hnone : (m.sweep now).1.lookup n = none := by
    simp only [PresenceManager.sweep, PresenceManager.lookup]
    rw [hget, hse]
  refine ⟨hnone, fun now' => ?_, fun t' => ?_⟩
  · simp only [PresenceManager.hasLease]
    rw [show assocGet (m.sweep now).1.leases n = none from hnone]
  · simp only [PresenceManager.touch]
    rw [show assocGet (m.sweep now).1.leases n = none from hnone]
    simp [PresenceManager.lookup, assocGet_assocSet_self]

/-- C3 witness: a node last seen at 0 swept at time 12 with
`HardEvictTTL = 10` is removed, not alive at time 13, and recreated by a
touch at 20. -/
theorem presence_hard_eviction_witness :
    ((PresenceManager.mk ⟨5, 1, 10⟩ [("x", ⟨0, false⟩)] true).sweep 12).1.lookup "x" =
      none ∧
    ((PresenceManager.mk ⟨5, 1, 10⟩ [("x", ⟨0, false⟩)] true).sweep 12).1.hasLease 13 "x" =
      false ∧
    (((PresenceManager.mk ⟨5, 1, 10⟩ [("x", ⟨0, false⟩)] true).sweep 12).1.touch "x" 20).lookup "x" =
      some ⟨20, false⟩ := by
  obtain ⟨h1, h2, h3⟩ := presence_hard_eviction
    (PresenceManager.mk ⟨5, 1, 10⟩ [("x", ⟨0, false⟩)] true) "x" ⟨0, false⟩ 12
    (by decide) (by decide) (by decide)
  exact ⟨h1, h2 13, h3 20⟩

/-- C4: when a sweep pass finds a node at or past `HardEvictTTL`, the
expiry notifier is invoked iff the node has not yet been notified — so a
not-yet-notified node is notified exactly once in the very pass that
removes it (this needs no relation between the two TTLs, covering
`HardEvictTTL ≤ HeartbeatTTL` and a coarse `SweepInterval`). -/
theorem presence_hard_evict_notifies (m : PresenceManager) (n : String) (e : Lease)
    (now : Int) (hnd : (assocKeys m.leases).Nodup)
    (he : m.lookup n = some e)
    (hev : m.config.hardEvictTTL ≤ now - e.lastSeen) :
    (m.sweep now).2.count n = (if e.notified then 0 else 1) ∧
    (m.sweep now).1.lookup n = none := by
  obtain ⟨hget, hcount⟩ := sweepList_get m.config now m.leases n e hnd he
  constructor
  · simp only [PresenceManager.sweep]
    rw [hcount]
    simp only [sweepEntry, if_pos hev]
    by_cases h : e.notified <;> simp [h]
  · simp only [PresenceManager.sweep, PresenceManager.lookup]
    rw [hget]
    simp [sweepEntry, if_pos hev]

/-- C4 witness: with `HardEvictTTL = 3 ≤ HeartbeatTTL = 5` (skipping the
soft window entirely), an un-notified node at elapsed 4 is notified
exactly once and removed in the same pass. -/
theorem presence_hard_evict_notifies_witness :
    ((PresenceManager.mk ⟨5, 1, 3⟩ [("x", ⟨0, false⟩)] true).sweep 4).2.count "x" =
      (if (Lease.mk 0 false).notified then 0 else 1) ∧
    ((PresenceManager.mk ⟨5, 1, 3⟩ [("x", ⟨0, false⟩)] true).sweep 4).1.lookup "x" =
      none :=
  presence_hard_evict_notifies
    (PresenceManager.mk ⟨5, 1, 3⟩ [("x", ⟨0, false⟩)] true) "x" ⟨0, false⟩ 4
    (by decide) (by decide) (by decide)

/-- C5: construction replaces each zero-valued configuration field with
its default — `HeartbeatTTL` 15 s, `HardEvictTTL` 5 min, a positive
`SweepInterval` — keeps non-zero fields unchanged, and never yields a
zero TTL. -/
theorem presence_config_defaults (c : PresenceManagerConfig) :
    (newPresenceManager c).config = applyDefaults c ∧
    (c.heartbeatTTL = 0 → (applyDefaults c).heartbeatTTL = defaultHeartbeatTTL) ∧
    (c.heartbeatTTL ≠ 0 → (applyDefaults c).heartbeatTTL = c.heartbeatTTL) ∧
    (c.hardEvictTTL = 0 → (applyDefaults c).hardEvictTTL = defaultHardEvictTTL) ∧
    (c.hardEvictTTL ≠ 0 → (applyDefaults c).hardEvictTTL = c.hardEvictTTL) ∧
    (c.sweepInterval = 0 → 0 < (applyDefaults c).sweepInterval) ∧
    (c.sweepInterval ≠ 0 → (applyDefaults c).sweepInterval = c.sweepInterval) ∧
    ((0 : Int) ≤ c.heartbeatTTL → (applyDefaults c).heartbeatTTL ≠ 0) ∧
    ((0 : Int) ≤ c.hardEvictTTL → (applyDefaults c).hardEvictTTL ≠ 0) := by
  refine ⟨rfl, ?_, ?_, ?_, ?_, ?_, ?_, ?_, ?_⟩ <;>
    intro h <;>
    simp [applyDefaults, h, defaultHeartbeatTTL, defaultHardEvictTTL,
      defaultSweepInterval]
  · intro h2
    omega
  · intro h2
    omega

/-- C5 witness: the zero-value configuration yields the documented
defaults, and a fully specified configuration is kept unchanged. -/
theorem presence_config_defaults_witness :
    (applyDefaults ⟨0, 0, 0⟩).heartbeatTTL = defaultHeartbeatTTL ∧
    (applyDefaults ⟨0, 0, 0⟩).hardEvictTTL = defaultHardEvictTTL ∧
    0 < (applyDefaults ⟨0, 0, 0⟩).sweepInterval ∧
    (applyDefaults ⟨10, 2, 30⟩).heartbeatTTL = 10 :=
  ⟨(presence_config_defaults ⟨0, 0, 0⟩).2.1 rfl,
   (presence_config_defaults ⟨0, 0, 0⟩).2.2.2.1 rfl,
   (presence_config_defaults ⟨0, 0, 0⟩).2.2.2.2.2.1 rfl,
   (presence_config_defaults ⟨10, 2, 30⟩).2.2.1 (by decide)⟩

/-- C6: `Start` and `Stop` are idempotent — a second consecutive `Start`
or `Stop` changes nothing — and `Stop` on a manager that is not running
(in particular one never started) is a no-op. -/
theorem presence_start_stop_idempotent (m : PresenceManager) :
    m.start.start = m.start ∧
    m.stop.stop = m.stop ∧
    (m.running = false → m.stop = m) := by
  refine ⟨?_, ?_, fun h => ?_⟩
  · simp [PresenceManager.start]
    split_ifs <;> simp_all [PresenceManager.start]
  · simp [PresenceManager.stop]
    split_ifs <;> simp_all [PresenceManager.stop]
  · simp [PresenceManager.stop, h]

/-- C6 witness: concrete check on a freshly constructed manager. -/
theorem presence_start_stop_idempotent_witness :
    (newPresenceManager ⟨5, 1, 10⟩).stop = newPresenceManager ⟨5, 1, 10⟩ :=
  (presence_start_stop_idempotent (newPresenceManager ⟨5, 1, 10⟩)).2.2 rfl

/-- C7: `lastSeen` is monotonically non-decreasing under `Touch` — a touch
carrying an older timestamp never decreases it (latest-timestamp-wins) —
and a stale touch on an already-removed (hard-evicted) node does not make
it alive and is evicted again by the next sweep pass. -/
theorem presence_touch_monotone (m : PresenceManager) (n : String) (t now : Int)
    (e : Lease) (hnd : (assocKeys m.leases).Nodup) :
    (m.lookup n = some e →
      ∃ e', (m.touch n t).lookup n = some e' ∧
        e'.lastSeen = max e.lastSeen t ∧ e.lastSeen ≤ e'.lastSeen) ∧
    (m.lookup n = none →
      m.config.heartbeatTTL ≤ m.config.hardEvictTTL →
      m.config.hardEvictTTL ≤ now - t →
      (m.touch n t).hasLease now n = false ∧
      ((m.touch n t).sweep now).1.lookup n = none) := by
  constructor
  · intro he
    simp only [PresenceManager.lookup] at he
    simp only [PresenceManager.touch, PresenceManager.lookup, he]
    by_cases hlt : e.lastSeen < t
    · refine ⟨⟨t, false⟩, ?_, ?_, le_of_lt hlt⟩
      · simp [hlt, assocGet_assocSet_self]
      · simp [max_eq_right (le_of_lt hlt)]
    · refine ⟨e, ?_, ?_, le_refl _⟩
      · simp [hlt, he]
      · simp [max_eq_left (not_lt.mp hlt)]
  · intro hnone hcfg hstale
    simp only [PresenceManager.lookup] at hnone
    simp only [PresenceManager.touch, hnone]
    have hget : assocGet (assocSet m.leases n ⟨t, false⟩) n = some ⟨t, false⟩ :=
      assocGet_assocSet_self m.leases n ⟨t, false⟩
    constructor
    · simp only [PresenceManager.hasLease, hget, decide_eq_false_iff_not, not_lt]
      omega
    · have hnd' := assocSet_keys_nodup m.leases n ⟨t, false⟩ hnd
      have := (sweepList_get m.config now
        (assocSet m.leases n ⟨t, false⟩) n ⟨t, false⟩ hnd' hget).1
      simp only [PresenceManager.sweep, PresenceManager.lookup]
      rw [this]
      simp [sweepEntry, if_pos hstale]

/-- C7 witness: a stale touch (timestamp 0, hard TTL 10) on an absent node
at time 12 leaves the node not alive and removed again after one sweep. -/
theorem presence_touch_monotone_witness :
    ((PresenceManager.mk ⟨5, 1, 10⟩ [] true).touch "x" 0).hasLease 12 "x" = false ∧
    (((PresenceManager.mk ⟨5, 1, 10⟩ [] true).touch "x" 0).sweep 12).1.lookup "x" =
      none :=
  (presence_touch_monotone (PresenceManager.mk ⟨5, 1, 10⟩ [] true) "x" 0 12
    ⟨0, false⟩ (by decide)).2 rfl (by decide) (by decide)

/-- C8: `Forget` removes the entry immediately regardless of TTLs (a touch
followed by a forget leaves no lease and `HasLease` false at any query
time), fires no expiry callback, and is a no-op on an unknown node. -/
theorem presence_forget_removes (m : PresenceManager) (n : String) (t now : Int)
    (hnd : (assocKeys m.leases).Nodup) :
    ((m.touch n t).forget n).1.lookup n = none ∧
    ((m.touch n t).forget n).1.hasLease now n = false ∧
    ((m.touch n t).forget n).2 = [] ∧
    (m.forget n).2 = [] ∧
    (m.lookup n = none → (m.forget n).1 = m) := by
  have hnd' := touch_keys_nodup m n t hnd
  have hdel : assocGet (assocDelete (m.touch n t).leases n) n = none :=
    assocGet_assocDelete_self (m.touch n t).leases n hnd'
  refine ⟨?_, ?_, rfl, rfl, fun hnone => ?_⟩
  · simpa [PresenceManager.forget, PresenceManager.lookup] using hdel
  · simp only [PresenceManager.forget, PresenceManager.hasLease]
    rw [hdel]
  · simp only [PresenceManager.lookup] at hnone
    simp [PresenceManager.forget, assocDelete_absent m.leases n hnone]

/-- C8 witness: touch-then-forget on a concrete manager leaves no lease,
reports not-alive, and produces no callback; forget of an unknown node is
a no-op. -/
theorem presence_forget_removes_witness :
    (((PresenceManager.mk ⟨5, 1, 10⟩ [] true).touch "x" 0).forget "x").1.lookup "x" =
      none ∧
    ((PresenceManager.mk ⟨5, 1, 10⟩ [] true).forget "y").1 =
      PresenceManager.mk ⟨5, 1, 10⟩ [] true := by
  obtain ⟨h1, h2, h3, h4, h5⟩ := presence_forget_removes
    (PresenceManager.mk ⟨5, 1, 10⟩ [] true) "x" 0 0 (by decide)
  refine ⟨h1, ?_⟩
  obtain ⟨g1, g2, g3, g4, g5⟩ := presence_forget_removes
    (PresenceManager.mk ⟨5, 1, 10⟩ [] true) "y" 0 0 (by decide)
  exact g5 rfl
